import Mathlib

/-!
Verification of the wire-primitive functions of `yojimbo_common.h`
(libyojimbo): wrap-aware 16-bit sequence comparison, zig-zag signed
encoding, bit-width computation (`popcount`, `log2`, `bits_required`),
byte swapping and host/network normalization, and the variable-length
packet-sequence codec.

Machine integers are embedded as `Nat` (the value of the C unsigned
integer, kept below `2^w` by hypotheses) or as `Int` restricted to the
two's-complement range.  C bitwise operators `&`, `|`, `^`, `<<`, `>>`
become `&&&`, `|||`, `^^^`, `<<<`, `>>>` on `Nat`; wrap-around of a
`uint32`/`uint64` operation is written as an explicit `% 2^32` / `% 2^64`
where the C operation can overflow.
-/

namespace Yojimbo

/-! ## SequenceCompare (yojimbo_common.h lines 390-416)

`uint16_t` operands are promoted to `int` in C, so `s1 - s2` under the
guard `s1 > s2` is an exact (non-wrapping) difference; `Nat` subtraction
agrees with it under the same guard. -/

/-- `sequence_greater_than` from yojimbo_common.h line 390:
`( ( s1 > s2 ) && ( s1 - s2 <= 32768 ) ) || ( ( s1 < s2 ) && ( s2 - s1 > 32768 ) )`. -/
def sequence_greater_than (s1 s2 : Nat) : Bool :=
  (s1 > s2 && s1 - s2 ≤ 32768) || (s1 < s2 && s2 - s1 > 32768)

/-- `sequence_less_than` from yojimbo_common.h line 413:
`sequence_greater_than( s2, s1 )`. -/
def sequence_less_than (s1 s2 : Nat) : Bool :=
  sequence_greater_than s2 s1

/-- `sequence_greater_than` as a single decidable arithmetic proposition,
for `omega`-based reasoning. -/
theorem sequence_greater_than_eq_decide (s1 s2 : Nat) :
    sequence_greater_than s1 s2 =
      decide ((s1 > s2 ∧ s1 - s2 ≤ 32768) ∨ (s1 < s2 ∧ s2 - s1 > 32768)) := by
  simp [sequence_greater_than]

/-- C2: at the exact half-way distance the comparison is *not* uniformly
false: `sequence_greater_than s ((s + 32768) % 65536)` is `true` whenever
`32768 ≤ s`, because then the second argument is `s - 32768`, the first
branch fires and `s1 - s2 = 32768 ≤ 32768`.  Counterexample at `s = 32768`. -/
theorem sequence_greater_than_half_distance_cex :
    sequence_greater_than 32768 ((32768 + 32768) % 65536) = true := by
  decide

/-- C2 (amended): for every `uint16` value `s`,
`sequence_greater_than s ((s + 32768) % 65536)` is false exactly when
`s < 32768`, and true when `32768 ≤ s`: at the half-way distance the
numerically larger operand compares as greater. -/
theorem sequence_greater_than_half_distance (s : Nat) (hs : s < 65536) :
    sequence_greater_than s ((s + 32768) % 65536) = decide (32768 ≤ s) := by
  rw [sequence_greater_than_eq_decide, decide_eq_decide]
  omega

/-- Witness for C2's amended theorem at `s = 5`. -/
theorem sequence_greater_than_half_distance_witness :
    sequence_greater_than 5 ((5 + 32768) % 65536) = decide (32768 ≤ 5) :=
  sequence_greater_than_half_distance 5 (by decide)

/-- C7: adjacent sequence numbers compare in cyclic order across the wrap
boundary (`sequence_greater_than 1 0`, `sequence_greater_than 0 65535`,
`sequence_less_than 0 1` all hold), and `sequence_less_than s1 s2` equals
`sequence_greater_than s2 s1` for every pair. -/
theorem sequence_compare_wrap_and_duality :
    sequence_greater_than 1 0 = true ∧
    sequence_greater_than 0 65535 = true ∧
    sequence_less_than 0 1 = true ∧
    ∀ s1 s2 : Nat, sequence_less_than s1 s2 = sequence_greater_than s2 s1 :=
  ⟨by decide, by decide, by decide, fun _ _ => rfl⟩

/-- C9: `sequence_greater_than` is an irreflexive total cyclic comparison on
the `uint16` space: `sequence_greater_than s s` is false; for distinct
values exactly one direction holds (`sequence_greater_than s1 s2` is the
negation of `sequence_greater_than s2 s1`); and for pairs exactly 32768
apart the numerically larger value compares as greater. -/
theorem sequence_greater_than_cyclic_order (s1 s2 : Nat)
    (h1 : s1 < 65536) (h2 : s2 < 65536) :
    sequence_greater_than s1 s1 = false ∧
    (s1 ≠ s2 → sequence_greater_than s1 s2 = !sequence_greater_than s2 s1) ∧
    (s1 = s2 + 32768 → sequence_greater_than s1 s2 = true) := by
  refine ⟨?_, ?_, ?_⟩
  · rw [sequence_greater_than_eq_decide, decide_eq_false_iff_not]
    omega
  · intro hne
    rw [sequence_greater_than_eq_decide, sequence_greater_than_eq_decide,
      ← decide_not, decide_eq_decide]
    omega
  · intro heq
    rw [sequence_greater_than_eq_decide, decide_eq_true_eq]
    omega

/-- Witness for C9 at `s1 = 40000`, `s2 = 7232` (a pair exactly 32768
apart: the larger compares greater, the smaller does not). -/
theorem sequence_greater_than_cyclic_order_witness :
    sequence_greater_than 40000 40000 = false ∧
    (40000 ≠ 7232 → sequence_greater_than 40000 7232 = !sequence_greater_than 7232 40000) ∧
    (40000 = 7232 + 32768 → sequence_greater_than 40000 7232 = true) :=
  sequence_greater_than_cyclic_order 40000 7232 (by decide) (by decide)

/-! ## BitWidth (yojimbo_common.h lines 229-279)

`popcount` and `log2` are the portable (non-`__GNUC__`) bodies; their
`uint32_t` locals never overflow for `x < 2^32` (the partial bit-counts
stay far below `2^32`), so no `% 2^32` is needed.  `bits_required` has
two build-dependent bodies: the portable one, and the `__GNUC__` one
`32 - __builtin_clz( max - min )`, whose builtin is modelled below as
`clz32` with an undefined (`none`) result at 0, as GCC documents. -/

/-- `popcount` from yojimbo_common.h lines 234-240 (portable path). -/
def popcount (x : Nat) : Nat :=
  let a := x - ((x >>> 1) &&& 0x55555555)
  let b := ((a >>> 2) &&& 0x33333333) + (a &&& 0x33333333)
  let c := ((b >>> 4) + b) &&& 0x0f0f0f0f
  let d := c + (c >>> 8)
  let e := d + (d >>> 16)
  e &&& 0x0000003f

/-- Local `a` of `log2`, yojimbo_common.h line 254: `x | ( x >> 1 )`. -/
def log2_a (x : Nat) : Nat := x ||| (x >>> 1)

/-- Local `b` of `log2`, line 255: `a | ( a >> 2 )`. -/
def log2_b (x : Nat) : Nat := log2_a x ||| (log2_a x >>> 2)

/-- Local `c` of `log2`, line 256: `b | ( b >> 4 )`. -/
def log2_c (x : Nat) : Nat := log2_b x ||| (log2_b x >>> 4)

/-- Local `d` of `log2`, line 257: `c | ( c >> 8 )`. -/
def log2_d (x : Nat) : Nat := log2_c x ||| (log2_c x >>> 8)

/-- Local `e` of `log2`, line 258: `d | ( d >> 16 )`. -/
def log2_e (x : Nat) : Nat := log2_d x ||| (log2_d x >>> 16)

/-- `log2` from yojimbo_common.h lines 252-261: the bit-smear cascade
followed by `popcount( e >> 1 )`. -/
def log2 (x : Nat) : Nat := popcount (log2_e x >>> 1)

/-- `bits_required` from yojimbo_common.h line 277 (portable path):
`( min == max ) ? 0 : log2( max - min ) + 1`. -/
def bits_required (mn mx : Nat) : Nat :=
  if mn = mx then 0 else log2 (mx - mn) + 1

/-- `__builtin_clz` on a 32-bit operand: `32 - bitlength` for nonzero
input; GCC documents the result for input 0 as undefined, modelled as
`none`. -/
def clz32 (x : Nat) : Option Nat :=
  if x = 0 then none else some (32 - Nat.size x)

/-- The `__GNUC__` path of `bits_required`, yojimbo_common.h line 275:
`32 - __builtin_clz( max - min )`, undefined where the builtin is. -/
def bits_required_clz (mn mx : Nat) : Option Nat :=
  (clz32 (mx - mn)).map (fun c => 32 - c)

/-- One bit-smear step: if `y` has bit `i` set exactly when `x` has some
bit in `[i, i+m)` set, then `y ||| (y >>> m)` has bit `i` set exactly when
`x` has some bit in `[i, i+2m)` set. -/
theorem testBit_or_shiftRight (x y m : Nat)
    (hy : ∀ i, y.testBit i = true ↔ ∃ j, j < m ∧ x.testBit (i + j) = true)
    (i : Nat) :
    (y ||| y >>> m).testBit i = true ↔ ∃ j, j < 2*m ∧ x.testBit (i + j) = true := by
  rw [Nat.testBit_or, Nat.testBit_shiftRight, Bool.or_eq_true, hy i, hy (m + i)]
  constructor
  · rintro (⟨j, hj, hb⟩ | ⟨j, hj, hb⟩)
    · exact ⟨j, by omega, hb⟩
    · exact ⟨m + j, by omega, by rw [show i + (m + j) = m + i + j by omega]; exact hb⟩
  · rintro ⟨j, hj, hb⟩
    by_cases hjm : j < m
    · exact Or.inl ⟨j, hjm, hb⟩
    · exact Or.inr ⟨j - m, by omega, by rw [show m + i + (j - m) = i + j by omega]; exact hb⟩

/-- Bit `i` of the fully smeared value `e` is set exactly when `x` has a
set bit in `[i, i+32)`. -/
theorem log2_e_testBit (x i : Nat) :
    (log2_e x).testBit i = true ↔ ∃ j, j < 32 ∧ x.testBit (i + j) = true := by
  have h0 : ∀ i, x.testBit i = true ↔ ∃ j, j < 1 ∧ x.testBit (i + j) = true := by
    intro i
    constructor
    · intro hb
      exact ⟨0, by omega, by rwa [Nat.add_zero]⟩
    · rintro ⟨j, hj, hb⟩
      rwa [show j = 0 by omega, Nat.add_zero] at hb
  have h1 := testBit_or_shiftRight x x 1 h0
  have h2 := testBit_or_shiftRight x (log2_a x) 2 h1
  have h3 := testBit_or_shiftRight x (log2_b x) 4 h2
  have h4 := testBit_or_shiftRight x (log2_c x) 8 h3
  have h5 := testBit_or_shiftRight x (log2_d x) 16 h4
  exact h5 i

/-- For `x < 2^32` the smeared value is the all-ones pattern of width
`Nat.size x`. -/
theorem log2_e_eq (x : Nat) (hx : x < 2^32) :
    log2_e x = 2^(Nat.size x) - 1 := by
  apply Nat.eq_of_testBit_eq
  intro i
  rw [Nat.testBit_two_pow_sub_one]
  by_cases hi : i < Nat.size x
  · rw [decide_eq_true hi, log2_e_testBit]
    have hs1 : 1 ≤ Nat.size x := by omega
    have hlow : 2^(Nat.size x - 1) ≤ x := Nat.lt_size.mp (by omega)
    have hhigh : x < 2^(Nat.size x) := Nat.lt_size_self x
    have hdiv : x / 2^(Nat.size x - 1) = 1 := by
      have h2 : 2^(Nat.size x) = 2^(Nat.size x - 1) * 2 := by
        rw [← Nat.pow_succ]
        congr 1
        omega
      have hp : 0 < 2^(Nat.size x - 1) := Nat.pos_pow_of_pos _ (by norm_num)
      have hu : x / 2^(Nat.size x - 1) < 2 := Nat.div_lt_of_lt_mul (by omega)
      have hl : 1 ≤ x / 2^(Nat.size x - 1) := (Nat.one_le_div_iff hp).mpr hlow
      omega
    have hbit : x.testBit (Nat.size x - 1) = true := by
      rw [Nat.testBit_to_div_mod, hdiv]
      decide
    have hsle : Nat.size x ≤ 32 := Nat.size_le.mpr hx
    exact ⟨Nat.size x - 1 - i, by omega,
      by rwa [show i + (Nat.size x - 1 - i) = Nat.size x - 1 by omega]⟩
  · rw [decide_eq_false hi, ← Bool.not_eq_true, log2_e_testBit]
    rintro ⟨j, hj, hb⟩
    have hge : 2^(i + j) ≤ x := Nat.testBit_implies_ge hb
    have h2i : 2^i ≤ x := le_trans (Nat.pow_le_pow_right (by norm_num) (by omega)) hge
    exact hi (Nat.lt_size.mpr h2i)

/-- `popcount` of an all-ones pattern of width `k ≤ 32` is `k`. -/
theorem popcount_two_pow_sub_one : ∀ k : Nat, k ≤ 32 → popcount (2^k - 1) = k := by
  decide

/-- `log2 x` is `Nat.size x - 1`, i.e. `⌊log₂ x⌋` for `x ≥ 1` (and `0`
at `x = 0`). -/
theorem log2_eq (x : Nat) (hx : x < 2^32) : log2 x = Nat.size x - 1 := by
  unfold log2
  rw [log2_e_eq x hx]
  have hsle : Nat.size x ≤ 32 := Nat.size_le.mpr hx
  have hf : (2^(Nat.size x) - 1) >>> 1 = 2^(Nat.size x - 1) - 1 := by
    rw [Nat.shiftRight_eq_div_pow, Nat.pow_one]
    rcases Nat.eq_zero_or_pos (Nat.size x) with h0 | h1
    · rw [h0]
      decide
    · have h2 : 2^(Nat.size x) = 2 * 2^(Nat.size x - 1) := by
        rw [← Nat.pow_succ']
        congr 1
        omega
      omega
  rw [hf]
  exact popcount_two_pow_sub_one (Nat.size x - 1) (by omega)

/-- C3: for `uint32` bounds with `min ≤ max`, `bits_required` (portable
path) returns the least `k` with `max - min < 2^k`, and `0` when
`min == max`. -/
theorem bits_required_correct (mn mx : Nat) (hle : mn ≤ mx) (hmx : mx < 2^32) :
    mx - mn < 2^(bits_required mn mx) ∧
    (∀ k, mx - mn < 2^k → bits_required mn mx ≤ k) ∧
    (mn = mx → bits_required mn mx = 0) := by
  unfold bits_required
  by_cases h : mn = mx
  · rw [if_pos h]
    exact ⟨by omega, fun k _ => Nat.zero_le k, fun _ => rfl⟩
  · rw [if_neg h]
    have hd : mx - mn < 2^32 := by omega
    have hd0 : mx - mn ≠ 0 := by omega
    have hs1 : 1 ≤ Nat.size (mx - mn) := by
      rcases Nat.eq_zero_or_pos (Nat.size (mx - mn)) with h0 | h1
      · exact absurd (Nat.size_eq_zero.mp h0) hd0
      · omega
    rw [log2_eq _ hd]
    refine ⟨?_, ?_, fun heq => absurd heq h⟩
    · rw [show Nat.size (mx - mn) - 1 + 1 = Nat.size (mx - mn) by omega]
      exact Nat.lt_size_self _
    · intro k hk
      have := Nat.size_le.mpr hk
      omega

/-- Witness for C3 at `min = 3`, `max = 10`: `bits_required 3 10 = 3` and
`7 < 2^3`. -/
theorem bits_required_correct_witness :
    10 - 3 < 2^(bits_required 3 10) :=
  (bits_required_correct 3 10 (by decide) (by decide)).1

/-- C4: the two build paths of `bits_required` agree whenever
`min < max`, but at `min == max` the `__GNUC__` path evaluates
`__builtin_clz(0)`, which is undefined, while the portable path returns
`0`: the paths do **not** agree bit-for-bit at every input. -/
theorem bits_required_paths :
    (∀ mn mx : Nat, mn ≤ mx → mx < 2^32 → mn ≠ mx →
      bits_required_clz mn mx = some (bits_required mn mx)) ∧
    bits_required_clz 0 0 = none ∧
    bits_required 0 0 = 0 := by
  refine ⟨?_, rfl, rfl⟩
  intro mn mx hle hmx hne
  have hd0 : mx - mn ≠ 0 := by omega
  have hsle : Nat.size (mx - mn) ≤ 32 := Nat.size_le.mpr (by omega)
  have hs1 : 1 ≤ Nat.size (mx - mn) := by
    rcases Nat.eq_zero_or_pos (Nat.size (mx - mn)) with h0 | h1
    · exact absurd (Nat.size_eq_zero.mp h0) hd0
    · omega
  unfold bits_required_clz clz32 bits_required
  rw [if_neg hd0, if_neg hne, Option.map_some', log2_eq _ (by omega)]
  congr 1
  omega

/-- Witness for C4 on the agreeing range, at `min = 3`, `max = 10`. -/
theorem bits_required_paths_witness :
    bits_required_clz 3 10 = some (bits_required 3 10) :=
  bits_required_paths.1 3 10 (by decide) (by decide) (by decide)

/-! ## ZigZag (yojimbo_common.h lines 428-446)

`signed_to_unsigned` computes `( n << 1 ) ^ ( n >> 31 )` on a 32-bit
`int`: on the two's-complement bit pattern the left shift is
`(2 * bits) % 2^32` and the arithmetic right shift by 31 is all-ones for
a negative `n` and zero otherwise.  `unsigned_to_signed` computes
`( n >> 1 ) ^ ( -int32_t( n & 1 ) )` on `uint32_t` and returns the
pattern reinterpreted as `int`.  We represent an `int` operand as an
`Int` in `[-2^31, 2^31)` and a `uint32_t` as a `Nat` below `2^32`. -/

/-- The two's-complement 32-bit pattern of an `Int`. -/
def toUint32 (n : Int) : Nat := (n % 2^32).toNat

/-- Reinterpret a 32-bit pattern as a signed `int` value. -/
def toInt32 (n : Nat) : Int := if n < 2^31 then (n : Int) else (n : Int) - 2^32

/-- `signed_to_unsigned` from yojimbo_common.h line 428, as the uint32
reading of the returned bit pattern: `( n << 1 ) ^ ( n >> 31 )`. -/
def signed_to_unsigned (n : Int) : Nat :=
  ((2 * toUint32 n) % 2^32) ^^^ (if n < 0 then 2^32 - 1 else 0)

/-- `unsigned_to_signed` from yojimbo_common.h line 443:
`( n >> 1 ) ^ ( -int32_t( n & 1 ) )`, the uint32 result reinterpreted as
`int` on return. -/
def unsigned_to_signed (n : Nat) : Int :=
  toInt32 ((n / 2) ^^^ (if n % 2 = 1 then 2^32 - 1 else 0))

/-- XOR with an all-ones mask is complement: `n ^^^ (2^k - 1) = 2^k - 1 - n`
for `n < 2^k`. -/
theorem xor_two_pow_sub_one (n k : Nat) (h : n < 2^k) :
    n ^^^ (2^k - 1) = 2^k - 1 - n := by
  apply Nat.eq_of_testBit_eq
  intro i
  rw [show 2^k - 1 - n = 2^k - (n+1) by omega]
  rw [Nat.testBit_xor, Nat.testBit_two_pow_sub_one, Nat.testBit_two_pow_sub_succ h]
  by_cases hik : i < k
  · simp [hik]
  · have hni : n.testBit i = false :=
      Nat.testBit_lt_two_pow (Nat.lt_of_lt_of_le h (Nat.pow_le_pow_right (by norm_num) (by omega)))
    simp [hik, hni]

/-- Characterization of the zig-zag encoder on the int32 range:
`n ≥ 0 ↦ 2n` and `n < 0 ↦ 2|n| - 1`. -/
theorem signed_to_unsigned_eq (n : Int) (h1 : -2^31 ≤ n) (h2 : n < 2^31) :
    signed_to_unsigned n = if 0 ≤ n then (2*n).toNat else (2*(-n) - 1).toNat := by
  rcases le_or_lt 0 n with h | h
  · unfold signed_to_unsigned toUint32
    rw [if_neg (not_lt.mpr h), Nat.xor_zero, if_pos h]
    omega
  · have hb : toUint32 n = (n + 2^32).toNat := by unfold toUint32; omega
    unfold signed_to_unsigned
    rw [hb, if_pos h, if_neg (not_le.mpr h)]
    have harg : 2 * (n + 2^32).toNat % 2^32 < 2^32 := by omega
    rw [xor_two_pow_sub_one _ 32 harg]
    omega

/-- Characterization of the zig-zag decoder on the uint32 range:
even `n ↦ n/2` and odd `n ↦ -(n/2) - 1`. -/
theorem unsigned_to_signed_eq (n : Nat) (h : n < 2^32) :
    unsigned_to_signed n = if n % 2 = 0 then (n / 2 : Int) else -(n / 2 : Int) - 1 := by
  unfold unsigned_to_signed toInt32
  rcases Nat.even_or_odd n with he | ho
  · have h0 : n % 2 = 0 := Nat.even_iff.mp he
    rw [if_neg (show ¬ n % 2 = 1 by omega), Nat.xor_zero,
      if_pos (show n / 2 < 2^31 by omega), if_pos h0]
    omega
  · have h1 : n % 2 = 1 := Nat.odd_iff.mp ho
    rw [if_pos h1, xor_two_pow_sub_one (n / 2) 32 (by omega),
      if_neg (show ¬ 2^32 - 1 - n / 2 < 2^31 by omega),
      if_neg (show ¬ n % 2 = 0 by omega)]
    omega

/-- C5: the zig-zag decode is the exact inverse of the zig-zag encode over
the full signed 32-bit range:
`unsigned_to_signed (signed_to_unsigned n) = n` for every int32 `n`. -/
theorem unsigned_to_signed_signed_to_unsigned (n : Int)
    (h1 : -2^31 ≤ n) (h2 : n < 2^31) :
    unsigned_to_signed (signed_to_unsigned n) = n := by
  rw [signed_to_unsigned_eq n h1 h2]
  rcases le_or_lt 0 n with h | h
  · rw [if_pos h, unsigned_to_signed_eq _ (by omega), if_pos (by omega)]
    omega
  · rw [if_neg (not_le.mpr h), unsigned_to_signed_eq _ (by omega), if_neg (by omega)]
    omega

/-- Witness for C5 at `n = -2^31` (the extreme `INT32_MIN`). -/
theorem unsigned_to_signed_signed_to_unsigned_witness :
    unsigned_to_signed (signed_to_unsigned (-2^31)) = -2^31 :=
  unsigned_to_signed_signed_to_unsigned (-2^31) (by norm_num) (by norm_num)

/-- C8: the zig-zag encoder maps small-magnitude signed values to small
unsigned values regardless of sign: `0↦0`, `-1↦1`, `1↦2`, `-2↦3`, and in
general `n ↦ 2n` for `n ≥ 0` and `n ↦ 2|n| - 1` for `n < 0`. -/
theorem signed_to_unsigned_zigzag_values :
    signed_to_unsigned 0 = 0 ∧ signed_to_unsigned (-1) = 1 ∧
    signed_to_unsigned 1 = 2 ∧ signed_to_unsigned (-2) = 3 ∧
    ∀ n : Int, -2^31 ≤ n → n < 2^31 →
      signed_to_unsigned n = if 0 ≤ n then (2*n).toNat else (2*(-n) - 1).toNat := by
  refine ⟨by decide, by decide, by decide, by decide, ?_⟩
  exact signed_to_unsigned_eq

/-- Witness for C8's general clause at `n = -2`. -/
theorem signed_to_unsigned_zigzag_values_witness :
    signed_to_unsigned (-2) =
      if 0 ≤ (-2 : Int) then (2*(-2 : Int)).toNat else (2*(-(-2 : Int)) - 1).toNat :=
  signed_to_unsigned_zigzag_values.2.2.2.2 (-2) (by norm_num) (by norm_num)

/-- C10: the zig-zag mapping round-trips in the other direction as well:
`signed_to_unsigned (unsigned_to_signed u) = u` for every uint32 `u`, so
encode and decode form a bijection between the 32-bit domains. -/
theorem signed_to_unsigned_unsigned_to_signed (u : Nat) (h : u < 2^32) :
    signed_to_unsigned (unsigned_to_signed u) = u := by
  rw [unsigned_to_signed_eq u h]
  rcases Nat.even_or_odd u with he | ho
  · have h0 : u % 2 = 0 := Nat.even_iff.mp he
    rw [if_pos h0, signed_to_unsigned_eq _ (by omega) (by omega), if_pos (by omega)]
    omega
  · have h1 : u % 2 = 1 := Nat.odd_iff.mp ho
    rw [if_neg (by omega), signed_to_unsigned_eq _ (by omega) (by omega),
      if_neg (by omega)]
    omega

/-- Witness for C10 at `u = 2^32 - 1`. -/
theorem signed_to_unsigned_unsigned_to_signed_witness :
    signed_to_unsigned (unsigned_to_signed (2^32 - 1)) = 2^32 - 1 :=
  signed_to_unsigned_unsigned_to_signed (2^32 - 1) (by norm_num)

/-! ## ByteOrder (yojimbo_common.h lines 289-371)

The portable (non-`__GNUC__`) bodies of the three `bswap` overloads.  No
truncation is needed: every masked-and-shifted term already fits the
result width.  `host_to_network`/`network_to_host` test the build-time
flag `YOJIMBO_BIG_ENDIAN` (defined in yojimbo_config.h, outside this
header); the flag is passed here as an explicit `Bool` parameter. -/

/-- `bswap( uint16_t )` from yojimbo_common.h line 328:
`( value & 0x00ff ) << 8 | ( value & 0xff00 ) >> 8`. -/
def bswap16 (value : Nat) : Nat :=
  ((value &&& 0x00ff) <<< 8) ||| ((value &&& 0xff00) >>> 8)

/-- `bswap( uint32_t )` from yojimbo_common.h line 314 (portable path). -/
def bswap32 (value : Nat) : Nat :=
  ((value &&& 0x000000ff) <<< 24) ||| ((value &&& 0x0000ff00) <<< 8) |||
  ((value &&& 0x00ff0000) >>> 8) ||| ((value &&& 0xff000000) >>> 24)

/-- `bswap( uint64_t )` from yojimbo_common.h lines 294-297 (portable
path): three mask-and-shift layers successively reassigning `value`. -/
def bswap64 (value : Nat) : Nat :=
  let v1 := ((value &&& 0x00000000FFFFFFFF) <<< 32) ||| ((value &&& 0xFFFFFFFF00000000) >>> 32)
  let v2 := ((v1 &&& 0x0000FFFF0000FFFF) <<< 16) ||| ((v1 &&& 0xFFFF0000FFFF0000) >>> 16)
  ((v2 &&& 0x00FF00FF00FF00FF) <<< 8) ||| ((v2 &&& 0xFF00FF00FF00FF00) >>> 8)

/-- `host_to_network` (lines 343-350) at width 16, with the
`YOJIMBO_BIG_ENDIAN` build flag explicit. -/
def host_to_network16 (bigEndian : Bool) (value : Nat) : Nat :=
  if bigEndian then bswap16 value else value

/-- `network_to_host` (lines 364-371) at width 16. -/
def network_to_host16 (bigEndian : Bool) (value : Nat) : Nat :=
  if bigEndian then bswap16 value else value

/-- `host_to_network` at width 32. -/
def host_to_network32 (bigEndian : Bool) (value : Nat) : Nat :=
  if bigEndian then bswap32 value else value

/-- `network_to_host` at width 32. -/
def network_to_host32 (bigEndian : Bool) (value : Nat) : Nat :=
  if bigEndian then bswap32 value else value

/-- `host_to_network` at width 64. -/
def host_to_network64 (bigEndian : Bool) (value : Nat) : Nat :=
  if bigEndian then bswap64 value else value

/-- `network_to_host` at width 64. -/
def network_to_host64 (bigEndian : Bool) (value : Nat) : Nat :=
  if bigEndian then bswap64 value else value

/-- A masked-and-left-shifted term is bounded by the shifted mask. -/
theorem and_shiftLeft_lt (x m s n : Nat) (h : (m + 1) * 2^s ≤ 2^n) :
    (x &&& m) <<< s < 2^n := by
  rw [Nat.shiftLeft_eq]
  have h1 : x &&& m ≤ m := Nat.and_le_right
  have h2 : (x &&& m) * 2^s ≤ m * 2^s := Nat.mul_le_mul_right _ h1
  have h3 : m * 2^s + 2^s = (m + 1) * 2^s := by ring
  have h4 : 0 < 2^s := Nat.pos_pow_of_pos s (by norm_num)
  omega

/-- A masked-and-right-shifted term is bounded by any power bounding the
mask. -/
theorem and_shiftRight_lt (x m s n : Nat) (h : m < 2^n) :
    (x &&& m) >>> s < 2^n := by
  rw [Nat.shiftRight_eq_div_pow]
  have h1 := Nat.and_lt_two_pow x h
  have h2 := Nat.div_le_self (x &&& m) (2^s)
  omega

/-- `bswap16` stays below `2^16`. -/
theorem bswap16_lt (w : Nat) : bswap16 w < 2^16 :=
  Nat.or_lt_two_pow (and_shiftLeft_lt w 0x00ff 8 16 (by norm_num))
    (and_shiftRight_lt w 0xff00 8 16 (by norm_num))

/-- `bswap32` stays below `2^32`. -/
theorem bswap32_lt (w : Nat) : bswap32 w < 2^32 :=
  Nat.or_lt_two_pow
    (Nat.or_lt_two_pow
      (Nat.or_lt_two_pow (and_shiftLeft_lt w 0x000000ff 24 32 (by norm_num))
        (and_shiftLeft_lt w 0x0000ff00 8 32 (by norm_num)))
      (and_shiftRight_lt w 0x00ff0000 8 32 (by norm_num)))
    (and_shiftRight_lt w 0xff000000 24 32 (by norm_num))

/-- `bswap64` stays below `2^64`. -/
theorem bswap64_lt (w : Nat) : bswap64 w < 2^64 :=
  Nat.or_lt_two_pow (and_shiftLeft_lt _ 0x00FF00FF00FF00FF 8 64 (by norm_num))
    (and_shiftRight_lt _ 0xFF00FF00FF00FF00 8 64 (by norm_num))

/-- Per-bit view of the byte mask `0x00ff`. -/
theorem testBit_mask_00ff (j : Nat) : (0x00ff : Nat).testBit j = decide (j < 8) := by
  rw [show (0x00ff : Nat) = 2^8 - 1 by decide, Nat.testBit_two_pow_sub_one]

/-- Per-bit view of the byte mask `0xff00`. -/
theorem testBit_mask_ff00 (j : Nat) :
    (0xff00 : Nat).testBit j = (decide (8 ≤ j) && decide (j - 8 < 8)) := by
  rw [show (0xff00 : Nat) = (2^8 - 1) <<< 8 by decide]
  simp only [Nat.testBit_shiftLeft, Nat.testBit_two_pow_sub_one]

/-- Bit `i < 16` of `bswap16 v` is bit `i` of `v` with the two bytes
exchanged. -/
theorem bswap16_testBit (v i : Nat) (hi : i < 16) :
    (bswap16 v).testBit i = v.testBit (8 * (1 - i / 8) + i % 8) := by
  unfold bswap16
  interval_cases i <;>
    simp [Nat.testBit_or, Nat.testBit_and, Nat.testBit_shiftLeft, Nat.testBit_shiftRight,
      testBit_mask_00ff, testBit_mask_ff00]

/-- Per-bit view of the byte mask `0x00ff0000`. -/
theorem testBit_mask_00ff0000 (j : Nat) :
    (0x00ff0000 : Nat).testBit j = (decide (16 ≤ j) && decide (j - 16 < 8)) := by
  rw [show (0x00ff0000 : Nat) = (2^8 - 1) <<< 16 by decide]
  simp only [Nat.testBit_shiftLeft, Nat.testBit_two_pow_sub_one]

/-- Per-bit view of the byte mask `0xff000000`. -/
theorem testBit_mask_ff000000 (j : Nat) :
    (0xff000000 : Nat).testBit j = (decide (24 ≤ j) && decide (j - 24 < 8)) := by
  rw [show (0xff000000 : Nat) = (2^8 - 1) <<< 24 by decide]
  simp only [Nat.testBit_shiftLeft, Nat.testBit_two_pow_sub_one]

/-- Per-bit view of the low-word mask `0x00000000FFFFFFFF`. -/
theorem testBit_mask_lo32 (j : Nat) :
    (0x00000000FFFFFFFF : Nat).testBit j = decide (j < 32) := by
  rw [show (0x00000000FFFFFFFF : Nat) = 2^32 - 1 by decide, Nat.testBit_two_pow_sub_one]

/-- Per-bit view of the high-word mask `0xFFFFFFFF00000000`. -/
theorem testBit_mask_hi32 (j : Nat) :
    (0xFFFFFFFF00000000 : Nat).testBit j = (decide (32 ≤ j) && decide (j - 32 < 32)) := by
  rw [show (0xFFFFFFFF00000000 : Nat) = (2^32 - 1) <<< 32 by decide]
  simp only [Nat.testBit_shiftLeft, Nat.testBit_two_pow_sub_one]

/-- Per-bit view of the alternating mask `0x0000FFFF0000FFFF`. -/
theorem testBit_mask_lo16s (j : Nat) :
    (0x0000FFFF0000FFFF : Nat).testBit j =
      (decide (j < 16) || (decide (32 ≤ j) && decide (j - 32 < 16))) := by
  rw [show (0x0000FFFF0000FFFF : Nat) = (2^16 - 1) ||| ((2^16 - 1) <<< 32) by decide]
  simp only [Nat.testBit_or, Nat.testBit_shiftLeft, Nat.testBit_two_pow_sub_one]

/-- Per-bit view of the alternating mask `0xFFFF0000FFFF0000`. -/
theorem testBit_mask_hi16s (j : Nat) :
    (0xFFFF0000FFFF0000 : Nat).testBit j =
      ((decide (16 ≤ j) && decide (j - 16 < 16)) ||
        (decide (48 ≤ j) && decide (j - 48 < 16))) := by
  rw [show (0xFFFF0000FFFF0000 : Nat) = ((2^16 - 1) <<< 16) ||| ((2^16 - 1) <<< 48) by decide]
  simp only [Nat.testBit_or, Nat.testBit_shiftLeft, Nat.testBit_two_pow_sub_one]

/-- Per-bit view of the alternating mask `0x00FF00FF00FF00FF`. -/
theorem testBit_mask_lo8s (j : Nat) :
    (0x00FF00FF00FF00FF : Nat).testBit j =
      (decide (j < 8) || (decide (16 ≤ j) && decide (j - 16 < 8)) ||
        (decide (32 ≤ j) && decide (j - 32 < 8)) ||
        (decide (48 ≤ j) && decide (j - 48 < 8))) := by
  rw [show (0x00FF00FF00FF00FF : Nat) =
    ((2^8 - 1) ||| ((2^8 - 1) <<< 16)) ||| (((2^8 - 1) <<< 32) ||| ((2^8 - 1) <<< 48)) by decide]
  simp only [Nat.testBit_or, Nat.testBit_shiftLeft, Nat.testBit_two_pow_sub_one]
  cases decide (j < 8) <;> cases decide (16 ≤ j) <;> cases decide (32 ≤ j) <;>
    cases decide (48 ≤ j) <;> cases decide (j - 16 < 8) <;> cases decide (j - 32 < 8) <;>
    cases decide (j - 48 < 8) <;> rfl

/-- Per-bit view of the alternating mask `0xFF00FF00FF00FF00`. -/
theorem testBit_mask_hi8s (j : Nat) :
    (0xFF00FF00FF00FF00 : Nat).testBit j =
      ((decide (8 ≤ j) && decide (j - 8 < 8)) || (decide (24 ≤ j) && decide (j - 24 < 8)) ||
        (decide (40 ≤ j) && decide (j - 40 < 8)) ||
        (decide (56 ≤ j) && decide (j - 56 < 8))) := by
  rw [show (0xFF00FF00FF00FF00 : Nat) =
    (((2^8 - 1) <<< 8) ||| ((2^8 - 1) <<< 24)) |||
      (((2^8 - 1) <<< 40) ||| ((2^8 - 1) <<< 56)) by decide]
  simp only [Nat.testBit_or, Nat.testBit_shiftLeft, Nat.testBit_two_pow_sub_one]
  cases decide (8 ≤ j) <;> cases decide (24 ≤ j) <;> cases decide (40 ≤ j) <;>
    cases decide (56 ≤ j) <;> cases decide (j - 8 < 8) <;> cases decide (j - 24 < 8) <;>
    cases decide (j - 40 < 8) <;> cases decide (j - 56 < 8) <;> rfl

/-- Bit `i < 32` of `bswap32 v` is bit `i` of `v` with the four bytes
reversed. -/
theorem bswap32_testBit (v i : Nat) (hi : i < 32) :
    (bswap32 v).testBit i = v.testBit (8 * (3 - i / 8) + i % 8) := by
  unfold bswap32
  interval_cases i <;>
    simp [Nat.testBit_or, Nat.testBit_and, Nat.testBit_shiftLeft, Nat.testBit_shiftRight,
      testBit_mask_00ff, testBit_mask_ff00, testBit_mask_00ff0000, testBit_mask_ff000000]

/-- Bit `i < 64` of `bswap64 v` is bit `i` of `v` with the eight bytes
reversed. -/
theorem bswap64_testBit (v i : Nat) (hi : i < 64) :
    (bswap64 v).testBit i = v.testBit (8 * (7 - i / 8) + i % 8) := by
  unfold bswap64
  interval_cases i <;>
    simp [Nat.testBit_or, Nat.testBit_and, Nat.testBit_shiftLeft, Nat.testBit_shiftRight,
      testBit_mask_lo32, testBit_mask_hi32, testBit_mask_lo16s, testBit_mask_hi16s,
      testBit_mask_lo8s, testBit_mask_hi8s]

/-- Swapping a 16-bit value twice returns the original value. -/
theorem bswap16_bswap16 (v : Nat) (hv : v < 2^16) : bswap16 (bswap16 v) = v := by
  apply Nat.eq_of_testBit_eq
  intro i
  by_cases hi : i < 16
  · rw [bswap16_testBit _ i hi,
      bswap16_testBit v (8 * (1 - i / 8) + i % 8) (by omega)]
    congr 1
    omega
  · rw [Nat.testBit_lt_two_pow
        (Nat.lt_of_lt_of_le (bswap16_lt _) (Nat.pow_le_pow_right (by norm_num) (by omega))),
      Nat.testBit_lt_two_pow
        (Nat.lt_of_lt_of_le hv (Nat.pow_le_pow_right (by norm_num) (by omega)))]

/-- Swapping a 32-bit value twice returns the original value. -/
theorem bswap32_bswap32 (v : Nat) (hv : v < 2^32) : bswap32 (bswap32 v) = v := by
  apply Nat.eq_of_testBit_eq
  intro i
  by_cases hi : i < 32
  · rw [bswap32_testBit _ i hi,
      bswap32_testBit v (8 * (3 - i / 8) + i % 8) (by omega)]
    congr 1
    omega
  · rw [Nat.testBit_lt_two_pow
        (Nat.lt_of_lt_of_le (bswap32_lt _) (Nat.pow_le_pow_right (by norm_num) (by omega))),
      Nat.testBit_lt_two_pow
        (Nat.lt_of_lt_of_le hv (Nat.pow_le_pow_right (by norm_num) (by omega)))]

/-- Swapping a 64-bit value twice returns the original value. -/
theorem bswap64_bswap64 (v : Nat) (hv : v < 2^64) : bswap64 (bswap64 v) = v := by
  apply Nat.eq_of_testBit_eq
  intro i
  by_cases hi : i < 64
  · rw [bswap64_testBit _ i hi,
      bswap64_testBit v (8 * (7 - i / 8) + i % 8) (by omega)]
    congr 1
    omega
  · rw [Nat.testBit_lt_two_pow
        (Nat.lt_of_lt_of_le (bswap64_lt _) (Nat.pow_le_pow_right (by norm_num) (by omega))),
      Nat.testBit_lt_two_pow
        (Nat.lt_of_lt_of_le hv (Nat.pow_le_pow_right (by norm_num) (by omega)))]

/-- C6: at every width independently, byte swapping is an involution and
the host/network normalization round-trips to the identity (for either
value of the `YOJIMBO_BIG_ENDIAN` build flag). -/
theorem bswap_involution_and_network_round_trip :
    (∀ v : Nat, v < 2^16 → bswap16 (bswap16 v) = v) ∧
    (∀ v : Nat, v < 2^32 → bswap32 (bswap32 v) = v) ∧
    (∀ v : Nat, v < 2^64 → bswap64 (bswap64 v) = v) ∧
    (∀ (be : Bool) (v : Nat), v < 2^16 →
      network_to_host16 be (host_to_network16 be v) = v) ∧
    (∀ (be : Bool) (v : Nat), v < 2^32 →
      network_to_host32 be (host_to_network32 be v) = v) ∧
    (∀ (be : Bool) (v : Nat), v < 2^64 →
      network_to_host64 be (host_to_network64 be v) = v) := by
  refine ⟨bswap16_bswap16, bswap32_bswap32, bswap64_bswap64, ?_, ?_, ?_⟩
  · rintro (_ | _) v hv
    · rfl
    · exact bswap16_bswap16 v hv
  · rintro (_ | _) v hv
    · rfl
    · exact bswap32_bswap32 v hv
  · rintro (_ | _) v hv
    · rfl
    · exact bswap64_bswap64 v hv

/-- Witness for C6 at `v = 0x0123456789ABCDEF` on the 64-bit swap. -/
theorem bswap_involution_witness :
    bswap64 (bswap64 0x0123456789ABCDEF) = 0x0123456789ABCDEF :=
  bswap_involution_and_network_round_trip.2.2.1 0x0123456789ABCDEF (by norm_num)

/-! ## SequenceCodec (yojimbo_common.h lines 448-452)

`compress_packet_sequence`, `get_packet_sequence_bytes` and
`decompress_packet_sequence` are only *declared* in the header; their
bodies are not part of the inspected sources.  They are modelled from the
spec below (§4.5): a deterministic total encoder over the full 64-bit
domain using the spec's suggested ladder of 1..8 little-endian payload
bytes, with the prefix byte carrying the payload byte count. -/

/-- Modelled from the spec: the codec's byte-count ladder — the minimum
number of payload bytes (1..8) needed to hold `sequence`, so that the
encoded length is weakly increasing in the sequence magnitude. -/
def sequence_num_bytes (s : Nat) : Nat :=
  if s < 2^8 then 1 else if s < 2^16 then 2 else if s < 2^24 then 3
  else if s < 2^32 then 4 else if s < 2^40 then 5 else if s < 2^48 then 6
  else if s < 2^56 then 7 else 8

/-- The `n` low-order bytes of `s`, least significant first. -/
def toBytesLE : Nat → Nat → List Nat
  | 0, _ => []
  | n+1, s => (s % 256) :: toBytesLE n (s / 256)

/-- The value held by a little-endian byte list. -/
def fromBytesLE : List Nat → Nat
  | [] => 0
  | b :: rest => b + 256 * fromBytesLE rest

/-- Modelled from the spec: `compress_packet_sequence` (declared at
yojimbo_common.h line 448) returning
`(prefix_byte, num_sequence_bytes, sequence_bytes)`: the prefix byte is
the payload byte count and the payload is the sequence in little-endian
order. -/
def compress_packet_sequence (s : Nat) : Nat × Nat × List Nat :=
  (sequence_num_bytes s, sequence_num_bytes s, toBytesLE (sequence_num_bytes s) s)

/-- Modelled from the spec: `get_packet_sequence_bytes` (declared at line
450) — a pure lookup from prefix byte to payload byte count, agreeing
with the count chosen by the compressor. -/
def get_packet_sequence_bytes (prefix_byte : Nat) : Nat := prefix_byte

/-- Modelled from the spec: `decompress_packet_sequence` (declared at
line 452) reads the byte count from the prefix byte and reassembles the
little-endian payload. -/
def decompress_packet_sequence (prefix_byte : Nat) (sequence_bytes : List Nat) : Nat :=
  fromBytesLE (sequence_bytes.take (get_packet_sequence_bytes prefix_byte))

/-- `toBytesLE` produces exactly the requested number of bytes. -/
theorem toBytesLE_length (n : Nat) : ∀ s, (toBytesLE n s).length = n := by
  induction n with
  | zero => intro s; rfl
  | succ n ih => intro s; simp [toBytesLE, ih]

/-- Reassembling the `n` low-order bytes of `s` yields `s % 256^n`. -/
theorem fromBytesLE_toBytesLE (n : Nat) : ∀ s, fromBytesLE (toBytesLE n s) = s % 256^n := by
  induction n with
  | zero => intro s; simp [toBytesLE, fromBytesLE, Nat.mod_one]
  | succ n ih =>
    intro s
    rw [toBytesLE, fromBytesLE, ih (s / 256), Nat.pow_succ', Nat.mod_mul]

/-- Every `uint64` value fits in the byte count the ladder assigns it. -/
theorem lt_pow_sequence_num_bytes (s : Nat) (hs : s < 2^64) :
    s < 256^(sequence_num_bytes s) := by
  unfold sequence_num_bytes
  split_ifs <;> omega

/-- C1 (spec-modelled): the codec round-trips: decompressing the prefix
byte and payload produced by `compress_packet_sequence s` returns `s`
exactly, for every `s` in `[0, 2^64)` — in particular at `0`, `2^64 - 1`
and every byte-count boundary. -/
theorem decompress_compress_packet_sequence (s : Nat) (hs : s < 2^64) :
    decompress_packet_sequence (compress_packet_sequence s).1
      (compress_packet_sequence s).2.2 = s := by
  unfold decompress_packet_sequence compress_packet_sequence get_packet_sequence_bytes
  have htake : (toBytesLE (sequence_num_bytes s) s).take (sequence_num_bytes s) =
      toBytesLE (sequence_num_bytes s) s :=
    List.take_of_length_le (by rw [toBytesLE_length])
  rw [htake, fromBytesLE_toBytesLE, Nat.mod_eq_of_lt (lt_pow_sequence_num_bytes s hs)]

/-- Witness for C1 at the byte-count boundary `s = 2^8 = 256`. -/
theorem decompress_compress_packet_sequence_witness :
    decompress_packet_sequence (compress_packet_sequence 256).1
      (compress_packet_sequence 256).2.2 = 256 :=
  decompress_compress_packet_sequence 256 (by norm_num)

end Yojimbo
